import Mathlib

/-!
Verification of the redaction/restoration engine of the
iep-compliance-assistant repository (source file: src/unnamed/part_000,
"PII Masking Utilities").

Modelling conventions (shallow embedding):
* JS strings are modelled as `List Char` (`Str`).  JS `toLowerCase` /
  `toUpperCase` are modelled with Lean's ASCII `Char.toLower` / `Char.toUpper`
  (the source only case-folds; all behaviour relevant to the claims is ASCII).
* A JS object used as a dictionary (`PIIMappings`, `reverseMappings`) is
  modelled as an insertion-ordered association list; property assignment is
  `upsert` (update the existing key in place, else append), property read is
  `lookupM` (JS objects cannot hold duplicate keys, and `upsert` never creates
  them), `Object.keys` / `Object.entries` is `keysM` / the list itself.
* `text.replace(new RegExp(escapeRegExp(v), 'gi'), ph)` is a global,
  case-insensitive, literal, leftmost, non-overlapping substring replacement:
  `replaceAllBy charEqCI v ph text`.  The `escapeRegExp` helper of the source
  only serves to make the regex match literally, so it is absorbed into the
  literal matcher.  The replacement string undergoes JS replacement-pattern
  expansion per match (`expandRepl`): a dollar followed by a dollar, an
  ampersand, a backquote or a quote character is substituted; escaped
  patterns never escape (the pattern has no capture groups, so digit
  references stay literal).
  A JS regex built from the empty string matches the empty string at every
  position, inserting the (expanded) replacement around every character
  (`interleave`).
* `new Date(s)` / `toLocaleDateString` / `toISOString().split('T')[0]` are
  host-platform functions, not code of this repository; they are modelled by
  an explicit `DateEnv` parameter (`parse` returning `none` exactly when the
  JS date is invalid, i.e. `isNaN(d.getTime())`).
-/

namespace PII

abbrev Str := List Char

/-- Case-insensitive character comparison, as performed by a JS regex with the
`i` flag (ASCII simple case folding). -/
def charEqCI (a b : Char) : Bool := a.toLower == b.toLower

/-- Case-sensitive character comparison (JS regex without the `i` flag). -/
def charEqCS (a b : Char) : Bool := a == b

/-- JS `String.prototype.toLowerCase`. -/
def lowerStr (s : Str) : Str := s.map Char.toLower

/-- JS `String.prototype.toUpperCase`. -/
def upperStr (s : Str) : Str := s.map Char.toUpper

/-- `isPrefixBy eq pat t`: the pattern `pat` matches at the start of `t`,
comparing characters with `eq`. -/
def isPrefixBy (eq : Char → Char → Bool) : Str → Str → Bool
  | [], _ => true
  | _ :: _, [] => false
  | a :: pa, b :: tb => eq a b && isPrefixBy eq pa tb

/-- `containsSubBy eq pat t`: some occurrence of `pat` appears inside `t`
(JS `String.prototype.includes`, generalised over the character test). -/
def containsSubBy (eq : Char → Char → Bool) (pat : Str) : Str → Bool
  | [] => pat.isEmpty
  | c :: rest => isPrefixBy eq pat (c :: rest) || containsSubBy eq pat rest

/-- The backquote character (code 96), referenced by code point. -/
def chBacktick : Char := Char.ofNat 96

/-- The apostrophe character (code 39), referenced by code point. -/
def chQuote : Char := Char.ofNat 39

/-- JS GetSubstitution for a string replacement with a capture-free pattern
(`escapeRegExp` escapes parentheses, so the regex has no capture groups):
a dollar followed by a dollar yields a literal dollar, by an ampersand the
matched text, by a backquote the part of the subject before the match, by an
apostrophe the part after the match; any other dollar (including digit
references, which are literal when the pattern has no captures) is copied
verbatim. -/
def expandRepl (matched pre post : Str) : Str → Str
  | [] => []
  | [c] => [c]
  | c :: d :: rest2 =>
    if c = '$' then
      if d = '$' then '$' :: expandRepl matched pre post rest2
      else if d = '&' then matched ++ expandRepl matched pre post rest2
      else if d = chBacktick then pre ++ expandRepl matched pre post rest2
      else if d = chQuote then post ++ expandRepl matched pre post rest2
      else c :: expandRepl matched pre post (d :: rest2)
    else c :: expandRepl matched pre post (d :: rest2)

/-- Behaviour of a JS global replace with an empty pattern: the (expanded)
replacement is inserted before every character and once at the end; `pre` is
the part of the subject already scanned. -/
def interleave (repl : Str) : Str → Str → Str
  | pre, [] => expandRepl [] pre [] repl
  | pre, c :: rest =>
    expandRepl [] pre (c :: rest) repl ++ c :: interleave repl (pre ++ [c]) rest

/-- Scanner of the global replace: `pre` is the part of the subject before
the scan position (for backquote/quote substitution), `skip` counts
characters of an already matched region that still have to be consumed
without being re-scanned. -/
def replaceGo (eq : Char → Char → Bool) (key repl : Str) : Str → Nat → Str → Str
  | _, _, [] => []
  | pre, skip + 1, c :: rest => replaceGo eq key repl (pre ++ [c]) skip rest
  | pre, 0, c :: rest =>
    if isPrefixBy eq key (c :: rest) then
      expandRepl ((c :: rest).take key.length) pre ((c :: rest).drop key.length) repl
        ++ replaceGo eq key repl (pre ++ [c]) (key.length - 1) rest
    else
      c :: replaceGo eq key repl (pre ++ [c]) 0 rest

/-- JS `text.replace(new RegExp(escapeRegExp(key), flags), repl)`: global,
literal, leftmost, non-overlapping replacement of `key` in `t` by `repl`
with replacement-pattern expansion, characters compared by `eq`. -/
def replaceAllBy (eq : Char → Char → Bool) (key repl t : Str) : Str :=
  if key = [] then interleave repl [] t else replaceGo eq key repl [] 0 t

/-- A literal bracketed token in the sense of the spec's placeholder
vocabulary: at least two characters, starting with the opening bracket,
ending with the closing bracket, and containing each bracket exactly once. -/
def bracketedB (s : Str) : Bool :=
  decide (2 ≤ s.length) && (s.head? == some '[') && (s.getLast? == some ']')
    && (s.count '[' == 1) && (s.count ']' == 1)

/-- A `PIIMappings` object: insertion-ordered association list from real
values to placeholder tokens. -/
abbrev Mappings := List (Str × Str)

/-- JS object property read (`m[k]`): first (and, for lists built by `upsert`,
only) binding of `k`. -/
def lookupM : Mappings → Str → Option Str
  | [], _ => none
  | e :: rest, k => if e.1 = k then some e.2 else lookupM rest k

/-- JS object property write (`m[k] = v`): update an existing key in place
(keeping its insertion position), otherwise append. -/
def upsert (k v : Str) : Mappings → Mappings
  | [] => [(k, v)]
  | e :: rest => if e.1 = k then (k, v) :: rest else e :: upsert k v rest

/-- JS `Object.keys` (insertion order). -/
def keysM (m : Mappings) : List Str := m.map (·.1)

/-- The placeholder tokens of `PLACEHOLDERS` in the source. -/
def phStudentName : Str := "[STUDENT_NAME]".toList

def phStudentFirst : Str := "[STUDENT_FIRST]".toList

def phDob : Str := "[DATE_OF_BIRTH]".toList

def phStudentId : Str := "[STUDENT_ID]".toList

def phSchool : Str := "[SCHOOL_NAME]".toList

def phGrade : Str := "[GRADE_LEVEL]".toList

def phParentName : Str := "[PARENT_NAME]".toList

def phAddress : Str := "[ADDRESS]".toList

/-- The `StudentInfo` record (src/unnamed/part_002).  Optional / absent fields
are the empty string, matching JS truthiness tests in the source
(`if (studentInfo.field)` is false exactly for the empty string). -/
structure StudentInfo where
  name : Str := []
  dateOfBirth : Str := []
  studentId : Str := []
  school : Str := []
  grade : Str := []
  parentName : Str := []
  parentEmail : Str := []
  address : Str := []

/-- Host-platform date facilities used by `createPIIMappings`:
`parse s = none` models `isNaN(new Date(s).getTime())`; `fmtLocale` models
`toLocaleDateString()`; `fmtISO` models `toISOString().split('T')[0]`.
These are JS runtime functions, not code of this repository, so the embedding
abstracts over them. -/
structure DateEnv where
  parse : Str → Option Int
  fmtLocale : Int → Str
  fmtISO : Int → Str

/-- JS `studentInfo.name.split(' ')[0]`: the characters before the first
space (`split` never yields an empty array, and its head is the run of
characters before the first separator). -/
def firstToken (n : Str) : Str := n.takeWhile (fun c => c != ' ')

/-- `createPIIMappings` (src/unnamed/part_000, lines 37-92), statement for
statement.  Note that the lowercase/uppercase first-name entries are written
unconditionally whenever the name is non-empty, while the exact first-name
entry is guarded by `firstName && firstName !== studentInfo.name`. -/
def createPIIMappings (env : DateEnv) (si : StudentInfo) : Mappings :=
  let m0 : Mappings := []
  let m1 :=
    if si.name = [] then m0 else
      let mA := upsert si.name phStudentName m0
      let firstName := firstToken si.name
      let mB :=
        if firstName ≠ [] ∧ firstName ≠ si.name then
          upsert firstName phStudentFirst mA
        else mA
      let mC := upsert (lowerStr si.name) phStudentName mB
      let mD := upsert (upperStr si.name) phStudentName mC
      let mE := upsert (lowerStr firstName) phStudentFirst mD
      upsert (upperStr firstName) phStudentFirst mE
  let m2 :=
    if si.dateOfBirth = [] then m1 else
      let mA := upsert si.dateOfBirth phDob m1
      match env.parse si.dateOfBirth with
      | none => mA
      | some d => upsert (env.fmtISO d) phDob (upsert (env.fmtLocale d) phDob mA)
  let m3 := if si.studentId = [] then m2 else upsert si.studentId phStudentId m2
  let m4 :=
    if si.school = [] then m3 else
      upsert (upperStr si.school) phSchool
        (upsert (lowerStr si.school) phSchool (upsert si.school phSchool m3))
  let m5 := if si.grade = [] then m4 else upsert si.grade phGrade m4
  let m6 :=
    if si.parentName = [] then m5 else
      upsert (upperStr si.parentName) phParentName
        (upsert (lowerStr si.parentName) phParentName
          (upsert si.parentName phParentName m5))
  if si.address = [] then m6 else upsert si.address phAddress m6

/-- Stable insertion of a key into a list sorted by descending length:
an earlier key stays in front of later keys of the same length, reproducing
the stable JS `Array.prototype.sort` with comparator `b.length - a.length`. -/
def insertDescLen (x : Str) : List Str → List Str
  | [] => [x]
  | y :: ys => if y.length ≤ x.length then x :: y :: ys else y :: insertDescLen x ys

/-- Stable sort of the mapping keys by descending length
(`Object.keys(mappings).sort((a, b) => b.length - a.length)`). -/
def sortKeysDesc : List Str → List Str
  | [] => []
  | x :: xs => insertDescLen x (sortKeysDesc xs)

/-- `maskPII` (src/unnamed/part_000, lines 101-116): sort the keys by
descending length, then replace each key globally, case-insensitively and
literally by its placeholder, each step scanning the accumulated output of the
previous steps. -/
def maskPII (text : Str) (m : Mappings) : Str :=
  (sortKeysDesc (keysM m)).foldl
    (fun acc k => replaceAllBy charEqCI k ((lookupM m k).getD []) acc) text

/-- The reverse table built inside `unmaskPII` (lines 131-137): iterate the
mapping entries in insertion order; assign `reverse[placeholder] := realValue`
exactly when `!reverseMappings[placeholder]` holds in JS, i.e. when the
placeholder is absent *or currently bound to the empty string* (JS falsiness
of `""`). -/
def buildReverse (m : Mappings) : Mappings :=
  m.foldl
    (fun acc e => if (lookupM acc e.2).getD [] = [] then upsert e.2 e.1 acc else acc)
    []

/-- `unmaskPII` (lines 125-144): replace each placeholder of the reverse
table, globally, case-sensitively and literally, by its stored real value. -/
def unmaskPII (text : Str) (m : Mappings) : Str :=
  (buildReverse m).foldl (fun acc e => replaceAllBy charEqCS e.1 e.2 acc) text

/-- `validateNoExposedPII` (lines 154-171): collect every mapping key of
length greater than 2 whose lowercase form occurs in the lowercased text;
`isClean` is emptiness of that list. -/
def validateNoExposedPII (text : Str) (m : Mappings) : Bool × List Str :=
  let textLower := lowerStr text
  let exposed :=
    (keysM m).filter
      (fun rv => decide (2 < rv.length) && containsSubBy charEqCS (lowerStr rv) textLower)
  (exposed.isEmpty, exposed)

/-- State-passing rendering of `maskPII`: the mapping table is threaded as
mutable JS state through the loop (`mappings[realValue]` reads the current
table) and returned alongside the text, making the frame property of the
source — the loop never writes to `mappings` — a provable statement. -/
def maskPIIS (text : Str) (m : Mappings) : Str × Mappings :=
  (sortKeysDesc (keysM m)).foldl
    (fun p k => (replaceAllBy charEqCI k ((lookupM p.2 k).getD []) p.1, p.2))
    (text, m)

/-- State-passing rendering of `unmaskPII`: first pass threads the table while
building the reverse map from its entries, second pass threads it while
replacing placeholders. -/
def unmaskPIIS (text : Str) (m : Mappings) : Str × Mappings :=
  let rev :=
    m.foldl
      (fun p e =>
        (if (lookupM p.1 e.2).getD [] = [] then upsert e.2 e.1 p.1 else p.1, p.2))
      (([] : Mappings), m)
  rev.1.foldl (fun p e => (replaceAllBy charEqCS e.1 e.2 p.1, p.2)) (text, rev.2)

/-- State-passing rendering of `validateNoExposedPII`. -/
def validateNoExposedPIIS (text : Str) (m : Mappings) :
    (Bool × List Str) × Mappings :=
  let textLower := lowerStr text
  let exposed :=
    (keysM m).foldl
      (fun p rv =>
        (if decide (2 < rv.length) && containsSubBy charEqCS (lowerStr rv) textLower
         then p.1 ++ [rv] else p.1, p.2))
      (([] : List Str), m)
  ((exposed.1.isEmpty, exposed.1), exposed.2)

/-- Follows the spec's words for the Reverse Table, amended for the JS
falsiness check of the source: scanning the mapping in insertion order, the
first real value bound to a placeholder is retained, except that a currently
retained *empty* value is still overwritten by the next value for the same
placeholder. -/
def specFirstValue (cur : Option Str) (ph : Str) : Mappings → Option Str
  | [] => cur
  | e :: rest =>
    if e.2 = ph ∧ (cur = none ∨ cur = some []) then
      specFirstValue (some e.1) ph rest
    else specFirstValue cur ph rest

/-- The closed set of value shapes that the surrounding application sends
through `maskPIIInObject`: strings, numbers, booleans, null, arrays, and plain
objects (insertion-ordered key/value lists). -/
inductive JsonValue where
  | str (s : Str)
  | num (n : Int)
  | bool (b : Bool)
  | null
  | arr (items : List JsonValue)
  | obj (fields : List (Str × JsonValue))
deriving Repr

/-- `maskPIIInObject` (src/unnamed/part_000, lines 183-201): strings are
masked, arrays are mapped element-wise, objects are rebuilt with the same keys
and masked values, all other values (numbers, booleans, null) are returned
unchanged.  (`attach` only carries the membership facts used for
termination.) -/
def maskPIIInObject (v : JsonValue) (m : Mappings) : JsonValue :=
  match v with
  | .str s => .str (maskPII s m)
  | .arr items => .arr (items.attach.map (fun x => maskPIIInObject x.1 m))
  | .obj fields => .obj (fields.attach.map (fun x => (x.1.1, maskPIIInObject x.1.2 m)))
  | v => v
termination_by sizeOf v
decreasing_by
  · have h := List.sizeOf_lt_of_mem x.2
    simp only [JsonValue.arr.sizeOf_spec]
    omega
  · obtain ⟨⟨a, b⟩, hx⟩ := x
    have h := List.sizeOf_lt_of_mem hx
    simp only [Prod.mk.sizeOf_spec] at h
    simp only [JsonValue.obj.sizeOf_spec]
    omega

/-- The shape of a value: leaf contents erased, but the text/non-text
distinction, the ordering of array elements and the full key list of objects
retained. -/
inductive JShape where
  | textLeaf
  | otherLeaf
  | arr (items : List JShape)
  | obj (fields : List (Str × JShape))
deriving Repr

/-- Shape extraction for `JsonValue`. -/
def jshape (v : JsonValue) : JShape :=
  match v with
  | .str _ => .textLeaf
  | .num _ => .otherLeaf
  | .bool _ => .otherLeaf
  | .null => .otherLeaf
  | .arr items => .arr (items.attach.map (fun x => jshape x.1))
  | .obj fields => .obj (fields.attach.map (fun x => (x.1.1, jshape x.1.2)))
termination_by sizeOf v
decreasing_by
  · have h := List.sizeOf_lt_of_mem x.2
    simp only [JsonValue.arr.sizeOf_spec]
    omega
  · obtain ⟨⟨a, b⟩, hx⟩ := x
    have h := List.sizeOf_lt_of_mem hx
    simp only [Prod.mk.sizeOf_spec] at h
    simp only [JsonValue.obj.sizeOf_spec]
    omega

/-- A concrete date environment for witnesses: parses exactly the stored
string "2015-04-02" (as JS does), rendering it in US locale form and ISO
form. -/
def dateEnv0 : DateEnv where
  parse := fun s => if s = "2015-04-02".toList then some 1427932800000 else none
  fmtLocale := fun _ => "4/2/2015".toList
  fmtISO := fun _ => "2015-04-02".toList

/-- A date environment that parses nothing, for records whose date field is
not a calendar date. -/
def dateEnvNone : DateEnv where
  parse := fun _ => none
  fmtLocale := fun _ => []
  fmtISO := fun _ => []

/-! ### Lemmas about the association-list model of JS objects -/

theorem lookupM_upsert (k v : Str) (m : Mappings) (k' : Str) :
    lookupM (upsert k v m) k' = if k' = k then some v else lookupM m k' := by
  induction m with
  | nil =>
    by_cases h : k' = k
    · subst h; simp [upsert, lookupM]
    · simp [upsert, lookupM, h, Ne.symm h]
  | cons e rest ih =>
    by_cases he : e.1 = k
    · by_cases h : k' = k
      · subst h; simp [upsert, he, lookupM]
      · simp [upsert, he, lookupM, h, Ne.symm h]
    · simp only [upsert, if_neg he]
      by_cases h : e.1 = k'
      · have hne : ¬ k' = k := by rw [← h]; exact he
        simp [lookupM, h, hne]
      · simp [lookupM, h, ih]

theorem keysM_upsert_subset (k v : Str) (m : Mappings) :
    keysM (upsert k v m) ⊆ k :: keysM m := by
  induction m with
  | nil =>
    intro a ha
    simp [upsert, keysM] at ha
    simp [ha]
  | cons e rest ih =>
    by_cases he : e.1 = k
    · intro a ha
      show a ∈ k :: e.1 :: keysM rest
      simp only [upsert, if_pos he, keysM, List.map_cons] at ha
      rcases List.mem_cons.mp ha with h1 | h1
      · exact List.mem_cons.mpr (Or.inl h1)
      · exact List.mem_cons.mpr (Or.inr (List.mem_cons.mpr (Or.inr h1)))
    · intro a ha
      show a ∈ k :: e.1 :: keysM rest
      simp only [upsert, if_neg he, keysM, List.map_cons] at ha
      rcases List.mem_cons.mp ha with h1 | h1
      · exact List.mem_cons.mpr (Or.inr (List.mem_cons.mpr (Or.inl h1)))
      · rcases List.mem_cons.mp (ih h1) with h2 | h2
        · exact List.mem_cons.mpr (Or.inl h2)
        · exact List.mem_cons.mpr (Or.inr (List.mem_cons.mpr (Or.inr h2)))

theorem mem_insertDescLen (a x : Str) (l : List Str) :
    a ∈ insertDescLen x l ↔ a = x ∨ a ∈ l := by
  induction l with
  | nil => simp [insertDescLen]
  | cons y ys ih =>
    by_cases h : y.length ≤ x.length
    · simp [insertDescLen, h]
    · simp [insertDescLen, h, ih]
      tauto

theorem mem_sortKeysDesc (a : Str) (l : List Str) :
    a ∈ sortKeysDesc l ↔ a ∈ l := by
  induction l with
  | nil => simp [sortKeysDesc]
  | cons x xs ih => simp [sortKeysDesc, mem_insertDescLen, ih]

theorem lookupM_of_mem_keys (m : Mappings) (k : Str) (h : k ∈ keysM m) :
    ∃ p, lookupM m k = some p ∧ (k, p) ∈ m := by
  induction m with
  | nil => simp [keysM] at h
  | cons e rest ih =>
    rw [show keysM (e :: rest) = e.1 :: keysM rest from rfl] at h
    by_cases he : e.1 = k
    · exact ⟨e.2, by simp [lookupM, he], List.mem_cons.mpr (Or.inl (by rw [← he]))⟩
    · have hr : k ∈ keysM rest := by
        rcases List.mem_cons.mp h with h1 | h1
        · exact absurd h1.symm he
        · exact h1
      rcases ih hr with ⟨p, hp, hmem⟩
      exact ⟨p, by simp [lookupM, he, hp], List.mem_cons.mpr (Or.inr hmem)⟩

/-! ### Structural equations for the literal global replacement -/

theorem replaceGo_skip (eq : Char → Char → Bool) (key repl : Str) :
    ∀ (t : Str) (pre : Str) (skip : Nat),
      replaceGo eq key repl pre skip t
        = replaceGo eq key repl (pre ++ t.take skip) 0 (t.drop skip) := by
  intro t
  induction t with
  | nil => intro pre skip; cases skip <;> simp [replaceGo]
  | cons c rest ih =>
    intro pre skip
    match skip with
    | 0 => simp
    | s + 1 =>
      show replaceGo eq key repl (pre ++ [c]) s rest = _
      rw [ih (pre ++ [c]) s]
      congr 1
      simp

theorem expandRepl_nodollar (matched pre post : Str) :
    ∀ (repl : Str), ('$' : Char) ∉ repl → expandRepl matched pre post repl = repl
  | [] => fun _ => rfl
  | [c] => fun _ => rfl
  | c :: d :: rest2 => fun h => by
    have hc : c ≠ '$' := fun hh => h (List.mem_cons.mpr (Or.inl hh.symm))
    simp only [expandRepl, if_neg hc]
    rw [expandRepl_nodollar matched pre post (d :: rest2)
      (fun hm => h (List.mem_cons_of_mem _ hm))]

theorem replaceGo_pre (eq : Char → Char → Bool) (key repl : Str)
    (hnd : ('$' : Char) ∉ repl) :
    ∀ (n : Nat) (t : Str), t.length ≤ n → ∀ (pre1 pre2 : Str),
      replaceGo eq key repl pre1 0 t = replaceGo eq key repl pre2 0 t := by
  intro n
  induction n with
  | zero =>
    intro t ht pre1 pre2
    have ht0 : t = [] := List.eq_nil_of_length_eq_zero (Nat.le_zero.mp ht)
    subst ht0
    rfl
  | succ n ih =>
    intro t ht pre1 pre2
    cases t with
    | nil => rfl
    | cons c rest =>
      by_cases hm : isPrefixBy eq key (c :: rest) = true
      · simp only [replaceGo, if_pos hm]
        rw [expandRepl_nodollar _ _ _ _ hnd, expandRepl_nodollar _ _ _ _ hnd]
        congr 1
        conv_lhs => rw [replaceGo_skip]
        conv_rhs => rw [replaceGo_skip]
        refine ih (rest.drop (key.length - 1)) ?_ _ _
        have h5 : rest.length ≤ n := by
          simp only [List.length_cons] at ht
          omega
        rw [List.length_drop]
        omega
      · simp only [replaceGo]
        rw [if_neg hm, if_neg hm]
        congr 1
        exact ih rest (by simp only [List.length_cons] at ht; omega) _ _

theorem replaceAllBy_nil (eq : Char → Char → Bool) (key repl : Str) (hk : key ≠ []) :
    replaceAllBy eq key repl [] = [] := by
  simp [replaceAllBy, hk, replaceGo]

theorem replaceAllBy_cons_pos (eq : Char → Char → Bool) (key repl : Str)
    (c : Char) (rest : Str) (hk : key ≠ []) (hnd : ('$' : Char) ∉ repl)
    (hp : isPrefixBy eq key (c :: rest) = true) :
    replaceAllBy eq key repl (c :: rest) =
      repl ++ replaceAllBy eq key repl ((c :: rest).drop key.length) := by
  cases key with
  | nil => exact absurd rfl hk
  | cons a ka =>
    have h1 : replaceAllBy eq (a :: ka) repl (c :: rest)
        = expandRepl ((c :: rest).take (a :: ka).length) []
            ((c :: rest).drop (a :: ka).length) repl
          ++ replaceGo eq (a :: ka) repl [c] ((a :: ka).length - 1) rest := by
      simp [replaceAllBy, replaceGo, hp]
    rw [h1, expandRepl_nodollar _ _ _ _ hnd, replaceGo_skip]
    congr 1
    have h2 : (a :: ka).length - 1 = ka.length := by simp
    have h3 : (c :: rest).drop (a :: ka).length = rest.drop ka.length := by simp
    rw [h2, h3]
    have h4 : replaceAllBy eq (a :: ka) repl (rest.drop ka.length)
        = replaceGo eq (a :: ka) repl [] 0 (rest.drop ka.length) := by
      simp [replaceAllBy]
    rw [h4]
    exact replaceGo_pre eq (a :: ka) repl hnd (rest.drop ka.length).length _
      (Nat.le_refl _) _ _

theorem replaceAllBy_cons_neg (eq : Char → Char → Bool) (key repl : Str)
    (c : Char) (rest : Str) (hk : key ≠ []) (hnd : ('$' : Char) ∉ repl)
    (hp : isPrefixBy eq key (c :: rest) = false) :
    replaceAllBy eq key repl (c :: rest) = c :: replaceAllBy eq key repl rest := by
  have h1 : replaceAllBy eq key repl (c :: rest)
      = c :: replaceGo eq key repl [c] 0 rest := by
    simp [replaceAllBy, hk, replaceGo, hp]
  rw [h1]
  congr 1
  have h2 : replaceAllBy eq key repl rest = replaceGo eq key repl [] 0 rest := by
    simp [replaceAllBy, hk]
  rw [h2]
  exact replaceGo_pre eq key repl hnd rest.length rest (Nat.le_refl _) _ _

/-! ### Occurrences never survive or reappear under character-disjoint
replacements.  `isPrefixBy_of_replace` transfers a match found at the head of
a replaced text back to the original text; the two main lemmas state that a
key's occurrences are eliminated by its own replacement step and are not
re-created by the steps of later keys, provided every replacement string is
non-empty and shares no character (under `eq`) with the key. -/

theorem isPrefixBy_of_replace (eq : Char → Char → Bool) (key repl : Str)
    (hk : key ≠ []) (hrepl : repl ≠ []) (hnd : ('$' : Char) ∉ repl) :
    ∀ (s x : Str), (∀ a ∈ x, ∀ b ∈ repl, eq a b = false) →
      isPrefixBy eq x (replaceAllBy eq key repl s) = true →
      isPrefixBy eq x s = true := by
  intro s
  induction s with
  | nil =>
    intro x hdisj hp
    rw [replaceAllBy_nil eq key repl hk] at hp
    cases x with
    | nil => rfl
    | cons a xs => simp [isPrefixBy] at hp
  | cons c rest ih =>
    intro x hdisj hp
    by_cases hm : isPrefixBy eq key (c :: rest) = true
    · rw [replaceAllBy_cons_pos eq key repl c rest hk hnd hm] at hp
      cases x with
      | nil => rfl
      | cons a xs =>
        cases repl with
        | nil => exact absurd rfl hrepl
        | cons b bs =>
          rw [List.cons_append] at hp
          simp only [isPrefixBy, Bool.and_eq_true] at hp
          have hab := hdisj a (List.mem_cons_self a xs) b (List.mem_cons_self b bs)
          rw [hab] at hp
          simp at hp
    · have hm' : isPrefixBy eq key (c :: rest) = false := by
        cases hh : isPrefixBy eq key (c :: rest) with
        | true => exact absurd hh hm
        | false => rfl
      rw [replaceAllBy_cons_neg eq key repl c rest hk hnd hm'] at hp
      cases x with
      | nil => rfl
      | cons a xs =>
        simp only [isPrefixBy, Bool.and_eq_true] at hp ⊢
        refine ⟨hp.1, ?_⟩
        exact ih xs (fun a' ha' b hb => hdisj a' (List.mem_cons_of_mem _ ha') b hb) hp.2

theorem containsSub_append_out (eq : Char → Char → Bool) (key : Str) (hk : key ≠ []) :
    ∀ (p R : Str), (∀ a ∈ key, ∀ b ∈ p, eq a b = false) →
      containsSubBy eq key (p ++ R) = true → containsSubBy eq key R = true := by
  intro p
  induction p with
  | nil => intro R _ h; simpa using h
  | cons b bs ih =>
    intro R hdisj h
    rw [List.cons_append] at h
    simp only [containsSubBy, Bool.or_eq_true] at h
    rcases h with h | h
    · cases key with
      | nil => exact absurd rfl hk
      | cons a ka =>
        simp only [isPrefixBy, Bool.and_eq_true] at h
        have hab := hdisj a (List.mem_cons_self a ka) b (List.mem_cons_self b bs)
        rw [hab] at h
        simp at h
    · exact ih R (fun a ha b' hb' => hdisj a ha b' (List.mem_cons_of_mem _ hb')) h

theorem containsSub_drop (eq : Char → Char → Bool) (key : Str) :
    ∀ (t : Str) (n : Nat), containsSubBy eq key (t.drop n) = true →
      containsSubBy eq key t = true := by
  intro t
  induction t with
  | nil => intro n h; simpa using h
  | cons c rest ih =>
    intro n h
    match n with
    | 0 => exact h
    | n' + 1 =>
      simp only [List.drop_succ_cons] at h
      simp only [containsSubBy, Bool.or_eq_true]
      exact Or.inr (ih n' h)

theorem replace_no_occurrence (eq : Char → Char → Bool) (key repl : Str)
    (hk : key ≠ []) (hrepl : repl ≠ []) (hnd : ('$' : Char) ∉ repl)
    (hdisj : ∀ a ∈ key, ∀ b ∈ repl, eq a b = false) :
    ∀ (n : Nat) (t : Str), t.length ≤ n →
      containsSubBy eq key (replaceAllBy eq key repl t) = false := by
  intro n
  induction n with
  | zero =>
    intro t ht
    have ht0 : t = [] := List.eq_nil_of_length_eq_zero (Nat.le_zero.mp ht)
    subst ht0
    rw [replaceAllBy_nil eq key repl hk]
    simpa [containsSubBy, List.isEmpty_iff] using hk
  | succ n ih =>
    intro t ht
    cases t with
    | nil =>
      rw [replaceAllBy_nil eq key repl hk]
      simpa [containsSubBy, List.isEmpty_iff] using hk
    | cons c rest =>
      by_cases hm : isPrefixBy eq key (c :: rest) = true
      · rw [replaceAllBy_cons_pos eq key repl c rest hk hnd hm]
        cases hcc : containsSubBy eq key
            (repl ++ replaceAllBy eq key repl ((c :: rest).drop key.length)) with
        | false => rfl
        | true =>
          have h2 := containsSub_append_out eq key hk repl _ hdisj hcc
          have hlen : ((c :: rest).drop key.length).length ≤ n := by
            have hk1 : 1 ≤ key.length := by
              cases key with
              | nil => exact absurd rfl hk
              | cons _ _ => simp
            simp only [List.length_drop, List.length_cons] at *
            omega
          rw [ih _ hlen] at h2
          simp at h2
      · have hm' : isPrefixBy eq key (c :: rest) = false := by
          cases hh : isPrefixBy eq key (c :: rest) with
          | true => exact absurd hh hm
          | false => rfl
        rw [replaceAllBy_cons_neg eq key repl c rest hk hnd hm']
        have hright : containsSubBy eq key (replaceAllBy eq key repl rest) = false :=
          ih rest (by simp only [List.length_cons] at ht; omega)
        have hleft : isPrefixBy eq key (c :: replaceAllBy eq key repl rest) = false := by
          cases key with
          | nil => exact absurd rfl hk
          | cons a ka =>
            simp only [isPrefixBy]
            cases hac : eq a c with
            | false => simp
            | true =>
              simp only [Bool.true_and]
              cases hka : isPrefixBy eq ka (replaceAllBy eq (a :: ka) repl rest) with
              | false => rfl
              | true =>
                have hdisj' : ∀ a' ∈ ka, ∀ b ∈ repl, eq a' b = false :=
                  fun a' ha' b hb => hdisj a' (List.mem_cons_of_mem _ ha') b hb
                have htr := isPrefixBy_of_replace eq (a :: ka) repl hk hrepl hnd rest ka hdisj' hka
                have hful : isPrefixBy eq (a :: ka) (c :: rest) = true := by
                  simp [isPrefixBy, hac, htr]
                rw [hful] at hm'
                simp at hm'
        simp [containsSubBy, hleft, hright]

theorem replace_keeps_no_occurrence (eq : Char → Char → Bool) (key key2 repl : Str)
    (hk : key ≠ []) (hk2 : key2 ≠ []) (hrepl : repl ≠ []) (hnd : ('$' : Char) ∉ repl)
    (hdisj : ∀ a ∈ key, ∀ b ∈ repl, eq a b = false) :
    ∀ (n : Nat) (t : Str), t.length ≤ n →
      containsSubBy eq key t = false →
      containsSubBy eq key (replaceAllBy eq key2 repl t) = false := by
  intro n
  induction n with
  | zero =>
    intro t ht hc
    have ht0 : t = [] := List.eq_nil_of_length_eq_zero (Nat.le_zero.mp ht)
    subst ht0
    rw [replaceAllBy_nil eq key2 repl hk2]
    exact hc
  | succ n ih =>
    intro t ht hc
    cases t with
    | nil =>
      rw [replaceAllBy_nil eq key2 repl hk2]
      exact hc
    | cons c rest =>
      have hcrest : containsSubBy eq key rest = false := by
        cases hh : containsSubBy eq key rest with
        | false => rfl
        | true =>
          have hcc : containsSubBy eq key (c :: rest) = true := by
            simp [containsSubBy, hh]
          rw [hcc] at hc
          simp at hc
      by_cases hm : isPrefixBy eq key2 (c :: rest) = true
      · rw [replaceAllBy_cons_pos eq key2 repl c rest hk2 hnd hm]
        cases hcc : containsSubBy eq key
            (repl ++ replaceAllBy eq key2 repl ((c :: rest).drop key2.length)) with
        | false => rfl
        | true =>
          have h2 := containsSub_append_out eq key hk repl _ hdisj hcc
          have hdrop : containsSubBy eq key ((c :: rest).drop key2.length) = false := by
            cases hh : containsSubBy eq key ((c :: rest).drop key2.length) with
            | false => rfl
            | true =>
              rw [containsSub_drop eq key _ _ hh] at hc
              simp at hc
          have hlen : ((c :: rest).drop key2.length).length ≤ n := by
            have hk1 : 1 ≤ key2.length := by
              cases key2 with
              | nil => exact absurd rfl hk2
              | cons _ _ => simp
            simp only [List.length_drop, List.length_cons] at *
            omega
          rw [ih _ hlen hdrop] at h2
          simp at h2
      · have hm' : isPrefixBy eq key2 (c :: rest) = false := by
          cases hh : isPrefixBy eq key2 (c :: rest) with
          | true => exact absurd hh hm
          | false => rfl
        rw [replaceAllBy_cons_neg eq key2 repl c rest hk2 hnd hm']
        have hright := ih rest (by simp only [List.length_cons] at ht; omega) hcrest
        have hleft : isPrefixBy eq key (c :: replaceAllBy eq key2 repl rest) = false := by
          cases key with
          | nil => exact absurd rfl hk
          | cons a ka =>
            simp only [isPrefixBy]
            cases hac : eq a c with
            | false => simp
            | true =>
              simp only [Bool.true_and]
              cases hka : isPrefixBy eq ka (replaceAllBy eq key2 repl rest) with
              | false => rfl
              | true =>
                have hdisj' : ∀ a' ∈ ka, ∀ b ∈ repl, eq a' b = false :=
                  fun a' ha' b hb => hdisj a' (List.mem_cons_of_mem _ ha') b hb
                have htr := isPrefixBy_of_replace eq key2 repl hk2 hrepl hnd rest ka hdisj' hka
                have hful : containsSubBy eq (a :: ka) (c :: rest) = true := by
                  simp [containsSubBy, isPrefixBy, hac, htr]
                rw [hful] at hc
                simp at hc
        simp [containsSubBy, hleft, hright]

theorem replaceGo_id_of_not_contains (eq : Char → Char → Bool) (key repl : Str) :
    ∀ (t : Str) (pre : Str), containsSubBy eq key t = false →
      replaceGo eq key repl pre 0 t = t := by
  intro t
  induction t with
  | nil => intro pre _; rfl
  | cons c rest ih =>
    intro pre hc
    have hp : isPrefixBy eq key (c :: rest) = false := by
      cases hh : isPrefixBy eq key (c :: rest) with
      | false => rfl
      | true =>
        have hcc : containsSubBy eq key (c :: rest) = true := by
          simp [containsSubBy, hh]
        rw [hcc] at hc
        simp at hc
    have hr : containsSubBy eq key rest = false := by
      cases hh : containsSubBy eq key rest with
      | false => rfl
      | true =>
        have hcc : containsSubBy eq key (c :: rest) = true := by
          simp [containsSubBy, hh]
        rw [hcc] at hc
        simp at hc
    simp only [replaceGo]
    rw [if_neg (by rw [hp]; simp)]
    rw [ih (pre ++ [c]) hr]

theorem replaceAllBy_id_of_not_contains (eq : Char → Char → Bool) (key repl : Str) :
    ∀ (t : Str), containsSubBy eq key t = false → replaceAllBy eq key repl t = t := by
  intro t hc
  have hk : key ≠ [] := by
    intro h
    subst h
    cases t with
    | nil => simp [containsSubBy] at hc
    | cons c rest => simp [containsSubBy, isPrefixBy] at hc
  have h1 : replaceAllBy eq key repl t = replaceGo eq key repl [] 0 t := by
    simp [replaceAllBy, hk]
  rw [h1]
  exact replaceGo_id_of_not_contains eq key repl t [] hc

/-! ### The case-insensitive scan coincides with the lowercased
case-sensitive scan of the leak validator -/

theorem isPrefixBy_lower (pat t : Str) :
    isPrefixBy charEqCI pat t = isPrefixBy charEqCS (lowerStr pat) (lowerStr t) := by
  induction pat generalizing t with
  | nil => cases t <;> simp [isPrefixBy, lowerStr]
  | cons a pa ih =>
    cases t with
    | nil => simp [isPrefixBy, lowerStr]
    | cons b tb =>
      simp only [lowerStr, List.map_cons, isPrefixBy, charEqCI, charEqCS]
      simp only [lowerStr] at ih
      rw [ih tb]

theorem containsSubBy_lower (pat t : Str) :
    containsSubBy charEqCI pat t = containsSubBy charEqCS (lowerStr pat) (lowerStr t) := by
  induction t with
  | nil => cases pat <;> simp [containsSubBy, lowerStr]
  | cons c rest ih =>
    have hpfx := isPrefixBy_lower pat (c :: rest)
    simp only [containsSubBy, ih, hpfx, lowerStr, List.map_cons]

/-! ### No mapped key survives the masking fold (under non-empty,
character-disjoint placeholders) -/

theorem maskPII_fold_keeps (m : Mappings) (key : Str) (hk : key ≠ [])
    (hstep : ∀ k2 ∈ keysM m, k2 ≠ [] ∧ ∃ p2, lookupM m k2 = some p2 ∧ p2 ≠ [] ∧
      ('$' : Char) ∉ p2 ∧ ∀ a ∈ key, ∀ b ∈ p2, charEqCI a b = false) :
    ∀ (L : List Str), (∀ k2 ∈ L, k2 ∈ keysM m) →
      ∀ acc, containsSubBy charEqCI key acc = false →
        containsSubBy charEqCI key
          (L.foldl (fun acc k => replaceAllBy charEqCI k ((lookupM m k).getD []) acc) acc)
          = false := by
  intro L
  induction L with
  | nil => intro _ acc hacc; exact hacc
  | cons k2 L2 ih =>
    intro hmem acc hacc
    simp only [List.foldl_cons]
    apply ih (fun x hx => hmem x (List.mem_cons_of_mem _ hx))
    have hk2m := hmem k2 (List.mem_cons_self k2 L2)
    rcases hstep k2 hk2m with ⟨hk2ne, p2, hlk, hp2ne, hp2nd, hdisj⟩
    rw [hlk]
    simp only [Option.getD_some]
    exact replace_keeps_no_occurrence charEqCI key k2 p2 hk hk2ne hp2ne hp2nd hdisj
      acc.length acc (Nat.le_refl _) hacc

theorem maskPII_no_occurrence (m : Mappings) (t : Str)
    (Hk : ∀ e ∈ m, e.1 ≠ []) (Hp : ∀ e ∈ m, e.2 ≠ [])
    (Hnd : ∀ e ∈ m, ('$' : Char) ∉ e.2)
    (Hd : ∀ e ∈ m, ∀ e2 ∈ m, ∀ a ∈ e2.1, ∀ b ∈ e.2, charEqCI a b = false) :
    ∀ key ∈ keysM m, containsSubBy charEqCI key (maskPII t m) = false := by
  intro key hkey
  obtain ⟨p, hlk, hmem⟩ := lookupM_of_mem_keys m key hkey
  have hkne : key ≠ [] := Hk (key, p) hmem
  have hpne : p ≠ [] := Hp (key, p) hmem
  have hsorted : key ∈ sortKeysDesc (keysM m) := (mem_sortKeysDesc key _).mpr hkey
  obtain ⟨L1, L2, hsplit⟩ := List.append_of_mem hsorted
  have hstep : ∀ k2 ∈ keysM m, k2 ≠ [] ∧ ∃ p2, lookupM m k2 = some p2 ∧ p2 ≠ [] ∧
      ('$' : Char) ∉ p2 ∧ ∀ a ∈ key, ∀ b ∈ p2, charEqCI a b = false := by
    intro k2 hk2
    obtain ⟨p2, hlk2, hmem2⟩ := lookupM_of_mem_keys m k2 hk2
    exact ⟨Hk (k2, p2) hmem2, p2, hlk2, Hp (k2, p2) hmem2, Hnd (k2, p2) hmem2,
      Hd (k2, p2) hmem2 (key, p) hmem⟩
  unfold maskPII
  rw [hsplit, List.foldl_append, List.foldl_cons]
  apply maskPII_fold_keeps m key hkne hstep L2
  · intro k2 hk2
    have : k2 ∈ sortKeysDesc (keysM m) := by
      rw [hsplit]
      exact List.mem_append_of_mem_right _ (List.mem_cons_of_mem _ hk2)
    exact (mem_sortKeysDesc k2 _).mp this
  · rw [hlk]
    simp only [Option.getD_some]
    exact replace_no_occurrence charEqCI key p hkne hpne (Hnd (key, p) hmem)
      (fun a ha b hb => Hd (key, p) hmem (key, p) hmem a ha b hb)
      _ _ (Nat.le_refl _)

/-! ### The reverse table of `unmaskPII` -/

theorem lookup_buildReverse_aux (ph : Str) :
    ∀ (m : Mappings) (acc : Mappings),
      lookupM
        (m.foldl
          (fun acc e => if (lookupM acc e.2).getD [] = [] then upsert e.2 e.1 acc else acc)
          acc) ph
        = specFirstValue (lookupM acc ph) ph m := by
  intro m
  induction m with
  | nil => intro acc; rfl
  | cons e rest ih =>
    intro acc
    simp only [List.foldl_cons, specFirstValue]
    by_cases hph : e.2 = ph
    · by_cases hcur : (lookupM acc e.2).getD [] = []
      · have hcond : e.2 = ph ∧ (lookupM acc ph = none ∨ lookupM acc ph = some []) := by
          refine ⟨hph, ?_⟩
          rw [← hph]
          cases hl : lookupM acc e.2 with
          | none => exact Or.inl rfl
          | some v =>
            rw [hl] at hcur
            simp only [Option.getD_some] at hcur
            exact Or.inr (by rw [hcur])
        rw [if_pos hcur, if_pos hcond, ih]
        have hup : lookupM (upsert e.2 e.1 acc) ph = some e.1 := by
          rw [lookupM_upsert, if_pos hph.symm]
        rw [hup]
      · have hcond : ¬ (e.2 = ph ∧ (lookupM acc ph = none ∨ lookupM acc ph = some [])) := by
          rintro ⟨h1, h2⟩
          apply hcur
          rw [hph]
          rcases h2 with h2 | h2 <;> rw [h2] <;> rfl
        rw [if_neg hcur, if_neg hcond, ih]
    · have hcond : ¬ (e.2 = ph ∧ (lookupM acc ph = none ∨ lookupM acc ph = some [])) :=
        fun h => hph h.1
      by_cases hcur : (lookupM acc e.2).getD [] = []
      · rw [if_pos hcur, if_neg hcond, ih]
        have hup : lookupM (upsert e.2 e.1 acc) ph = lookupM acc ph := by
          rw [lookupM_upsert, if_neg (fun h => hph h.symm)]
        rw [hup]
      · rw [if_neg hcur, if_neg hcond, ih]

theorem lookup_buildReverse (m : Mappings) (ph : Str) :
    lookupM (buildReverse m) ph = specFirstValue none ph m := by
  unfold buildReverse
  have h := lookup_buildReverse_aux ph m []
  simpa [lookupM] using h

theorem unmask_fold_id (t : Str) :
    ∀ (L : Mappings), (∀ e ∈ L, containsSubBy charEqCS e.1 t = false) →
      L.foldl (fun acc e => replaceAllBy charEqCS e.1 e.2 acc) t = t := by
  intro L
  induction L with
  | nil => intro _; rfl
  | cons e L2 ih =>
    intro h
    simp only [List.foldl_cons]
    rw [replaceAllBy_id_of_not_contains charEqCS e.1 e.2 t (h e (List.mem_cons_self e L2))]
    exact ih (fun e2 he2 => h e2 (List.mem_cons_of_mem _ he2))

/-! ### Unresolved bracketed tokens survive unmasking.  A placeholder token
is a bracket-delimited literal (`bracketedB`); two bracketed strings can
never overlap partially in a text, so the replacement of the resolvable
tokens of the reverse table cannot touch an occurrence of a token that has no
reverse-table entry, even in a text mixing resolvable and unresolved
tokens. -/

theorem containsSub_append_right (eq : Char → Char → Bool) (pat p R : Str)
    (h : containsSubBy eq pat R = true) : containsSubBy eq pat (p ++ R) = true := by
  induction p with
  | nil => simpa using h
  | cons b bs ih =>
    simp only [List.cons_append, containsSubBy, Bool.or_eq_true]
    exact Or.inr ih

theorem bk_parts (s : Str) (h : bracketedB s = true) :
    2 ≤ s.length ∧ s.head? = some '[' ∧ s.getLast? = some ']'
      ∧ s.count '[' = 1 ∧ s.count ']' = 1 := by
  simp only [bracketedB, Bool.and_eq_true, decide_eq_true_eq, beq_iff_eq] at h
  exact ⟨h.1.1.1.1, h.1.1.1.2, h.1.1.2, h.1.2, h.2⟩

theorem bk_ne_nil (s : Str) (h : bracketedB s = true) : s ≠ [] := by
  obtain ⟨hlen, _, _, _, _⟩ := bk_parts s h
  intro hh
  subst hh
  simp at hlen

theorem bk_shape (s : Str) (h : bracketedB s = true) :
    ∃ tl, s = '[' :: tl ∧ '[' ∉ tl := by
  obtain ⟨hlen, hhead, _, hcount, _⟩ := bk_parts s h
  cases s with
  | nil => simp at hhead
  | cons a tl =>
    simp only [List.head?_cons, Option.some.injEq] at hhead
    subst hhead
    refine ⟨tl, rfl, ?_⟩
    rw [List.count_cons_self] at hcount
    exact List.count_eq_zero.mp (by omega)

theorem isPrefixBy_cs_append (x : Str) :
    ∀ (s : Str), isPrefixBy charEqCS x s = true → ∃ r, s = x ++ r := by
  induction x with
  | nil => intro s _; exact ⟨s, rfl⟩
  | cons a x' ih =>
    intro s hp
    cases s with
    | nil => simp [isPrefixBy] at hp
    | cons c s' =>
      simp only [isPrefixBy, Bool.and_eq_true, charEqCS, beq_iff_eq] at hp
      obtain ⟨r, hr⟩ := ih s' hp.2
      refine ⟨r, ?_⟩
      rw [hr, hp.1]
      rfl

theorem bracketed_pre_unique_aux (k τ s : Str) (hbk : bracketedB k = true)
    (hbτ : bracketedB τ = true) (hlen : k.length ≤ τ.length)
    (hks : isPrefixBy charEqCS k s = true)
    (hτs : isPrefixBy charEqCS τ s = true) : k = τ := by
  obtain ⟨r1, hr1⟩ := isPrefixBy_cs_append k s hks
  obtain ⟨r2, hr2⟩ := isPrefixBy_cs_append τ s hτs
  have heq : k ++ r1 = τ ++ r2 := by rw [← hr1, ← hr2]
  have htk : τ.take k.length ++ (τ.drop k.length ++ r2) = k ++ r1 := by
    rw [← List.append_assoc, List.take_append_drop]
    exact heq.symm
  have hlt : (τ.take k.length).length = k.length := by
    rw [List.length_take]
    omega
  have hkeq : τ.take k.length = k := (List.append_inj htk (by rw [hlt])).1
  have hτd : τ = k ++ τ.drop k.length := by
    conv_lhs => rw [← List.take_append_drop k.length τ]
    rw [hkeq]
  by_cases hr : τ.drop k.length = []
  · rw [hτd, hr, List.append_nil]
  · exfalso
    obtain ⟨_, _, hglastτ, _, hcτ⟩ := bk_parts τ hbτ
    obtain ⟨_, _, _, _, hck⟩ := bk_parts k hbk
    have hcount : τ.count ']' = k.count ']' + (τ.drop k.length).count ']' := by
      conv_lhs => rw [hτd]
      exact List.count_append _ _ _
    rw [hcτ, hck] at hcount
    have hnotin : ']' ∉ τ.drop k.length := List.count_eq_zero.mp (by omega)
    have h5 := List.getLast?_append_of_ne_nil k hr
    rw [← hτd, hglastτ] at h5
    exact hnotin (List.mem_of_getLast?_eq_some h5.symm)

theorem bracketed_pre_unique (k τ s : Str) (hbk : bracketedB k = true)
    (hbτ : bracketedB τ = true) (hks : isPrefixBy charEqCS k s = true)
    (hτs : isPrefixBy charEqCS τ s = true) : k = τ := by
  rcases Nat.le_total k.length τ.length with h | h
  · exact bracketed_pre_unique_aux k τ s hbk hbτ h hks hτs
  · exact (bracketed_pre_unique_aux τ k s hbτ hbk h hτs hks).symm

theorem suffix_of_cons_suffix {a : Char} {x' τ : Str} (h : (a :: x') <:+ τ) :
    x' <:+ τ := by
  obtain ⟨w, hw⟩ := h
  exact ⟨w ++ [a], by rw [← hw]; simp⟩

theorem prefix_kept_go (key repl τ : Str) (hbk : bracketedB key = true)
    (hbτ : bracketedB τ = true) (hne : key ≠ τ) :
    ∀ (s : Str) (pre : Str) (x : Str), x <:+ τ →
      isPrefixBy charEqCS x s = true →
      isPrefixBy charEqCS x (replaceGo charEqCS key repl pre 0 s) = true := by
  intro s
  induction s with
  | nil =>
    intro pre x _ hp
    cases x with
    | nil => rfl
    | cons a xs => simp [isPrefixBy] at hp
  | cons c s' ih =>
    intro pre x hsuf hp
    by_cases hm : isPrefixBy charEqCS key (c :: s') = true
    · cases x with
      | nil => rfl
      | cons a x' =>
        exfalso
        obtain ⟨w, hw⟩ := hsuf
        cases w with
        | nil =>
          have hxτ : a :: x' = τ := by simpa using hw
          rw [hxτ] at hp
          exact hne (bracketed_pre_unique key τ (c :: s') hbk hbτ hm hp)
        | cons b w' =>
          obtain ⟨ttl, hshape, hnin⟩ := bk_shape τ hbτ
          obtain ⟨ktl, hkshape, _⟩ := bk_shape key hbk
          have hc : c = '[' := by
            rw [hkshape] at hm
            simp only [isPrefixBy, Bool.and_eq_true, charEqCS, beq_iff_eq] at hm
            exact hm.1.symm
          have hac : a = c := by
            simp only [isPrefixBy, Bool.and_eq_true, charEqCS, beq_iff_eq] at hp
            exact hp.1
          rw [hshape] at hw
          simp only [List.cons_append, List.cons.injEq] at hw
          apply hnin
          rw [← hw.2]
          have ha : a = '[' := hac.trans hc
          rw [← ha]
          exact List.mem_append_of_mem_right w' (List.mem_cons_self a x')
    · simp only [replaceGo]
      rw [if_neg hm]
      cases x with
      | nil => rfl
      | cons a x' =>
        simp only [isPrefixBy, Bool.and_eq_true] at hp ⊢
        exact ⟨hp.1, ih (pre ++ [c]) x' (suffix_of_cons_suffix hsuf) hp.2⟩

theorem contains_drop_of_matchtail (key τ : Str) (hbτ : bracketedB τ = true)
    (hbk : bracketedB key = true) :
    ∀ (u : Str), u <:+ key → u ≠ key → ∀ (s2 : Str),
      isPrefixBy charEqCS u s2 = true → containsSubBy charEqCS τ s2 = true →
      containsSubBy charEqCS τ (s2.drop u.length) = true := by
  intro u
  induction u with
  | nil => intro _ _ s2 _ hc; simpa using hc
  | cons b u' ihu =>
    intro hsuf hne s2 hp hc
    cases s2 with
    | nil => simp [isPrefixBy] at hp
    | cons c2 s2' =>
      simp only [isPrefixBy, Bool.and_eq_true, charEqCS, beq_iff_eq] at hp
      simp only [containsSubBy, Bool.or_eq_true] at hc
      rcases hc with hc | hc
      · exfalso
        obtain ⟨ttl, hτshape, _⟩ := bk_shape τ hbτ
        obtain ⟨ktl, hkshape, hknin⟩ := bk_shape key hbk
        have hc2 : c2 = '[' := by
          rw [hτshape] at hc
          simp only [isPrefixBy, Bool.and_eq_true, charEqCS, beq_iff_eq] at hc
          exact hc.1.symm
        have hbmem : b ∈ ktl := by
          obtain ⟨w, hw⟩ := hsuf
          cases w with
          | nil => exact absurd (by simpa using hw) hne
          | cons bb w' =>
            rw [hkshape] at hw
            simp only [List.cons_append, List.cons.injEq] at hw
            rw [← hw.2]
            exact List.mem_append_of_mem_right w' (List.mem_cons_self b u')
        rw [hp.1, hc2] at hbmem
        exact hknin hbmem
      · have hsuf' : u' <:+ key := suffix_of_cons_suffix hsuf
        have hne' : u' ≠ key := by
          intro hh
          have h1 := List.IsSuffix.length_le hsuf
          subst hh
          simp at h1
        have := ihu hsuf' hne' s2' hp.2 hc
        simpa [List.drop_succ_cons] using this

theorem contains_kept_go (key repl τ : Str) (hbk : bracketedB key = true)
    (hbτ : bracketedB τ = true) (hne : key ≠ τ) :
    ∀ (n : Nat) (s : Str), s.length ≤ n → ∀ (pre : Str),
      containsSubBy charEqCS τ s = true →
      containsSubBy charEqCS τ (replaceGo charEqCS key repl pre 0 s) = true := by
  have hτne := bk_ne_nil τ hbτ
  intro n
  induction n with
  | zero =>
    intro s hs pre hc
    have hs0 : s = [] := List.eq_nil_of_length_eq_zero (Nat.le_zero.mp hs)
    subst hs0
    rw [show containsSubBy charEqCS τ [] = τ.isEmpty from rfl] at hc
    exact absurd (List.isEmpty_iff.mp hc) hτne
  | succ n ih =>
    intro s hs pre hc
    cases s with
    | nil =>
      rw [show containsSubBy charEqCS τ [] = τ.isEmpty from rfl] at hc
      exact absurd (List.isEmpty_iff.mp hc) hτne
    | cons c s' =>
      simp only [containsSubBy, Bool.or_eq_true] at hc
      by_cases hm : isPrefixBy charEqCS key (c :: s') = true
      · rcases hc with hc | hc
        · exact absurd (bracketed_pre_unique key τ (c :: s') hbk hbτ hm hc) hne
        · obtain ⟨ktl, hkshape, hknin⟩ := bk_shape key hbk
          have hku : ktl <:+ key := by rw [hkshape]; exact ⟨['['], rfl⟩
          have hkune : ktl ≠ key := by
            intro hh
            have hlen := congrArg List.length hkshape
            rw [← hh] at hlen
            simp at hlen
          have hpk : isPrefixBy charEqCS ktl s' = true := by
            rw [hkshape] at hm
            simp only [isPrefixBy, Bool.and_eq_true] at hm
            exact hm.2
          have hdrop := contains_drop_of_matchtail key τ hbτ hbk ktl hku hkune s' hpk hc
          simp only [replaceGo, if_pos hm]
          apply containsSub_append_right
          rw [replaceGo_skip]
          have hlenk : key.length - 1 = ktl.length := by rw [hkshape]; simp
          rw [hlenk]
          refine ih (s'.drop ktl.length) ?_ _ hdrop
          simp only [List.length_cons] at hs
          rw [List.length_drop]
          omega
      · simp only [replaceGo]
        rw [if_neg hm]
        rcases hc with hc | hc
        · obtain ⟨ttl, hτshape, _⟩ := bk_shape τ hbτ
          have httl : ttl <:+ τ := by rw [hτshape]; exact ⟨['['], rfl⟩
          rw [hτshape] at hc ⊢
          simp only [isPrefixBy, Bool.and_eq_true] at hc
          simp only [containsSubBy, Bool.or_eq_true, isPrefixBy, Bool.and_eq_true]
          left
          refine ⟨hc.1, ?_⟩
          exact prefix_kept_go key repl τ hbk hbτ hne s' (pre ++ [c]) ttl httl hc.2
        · simp only [containsSubBy, Bool.or_eq_true]
          right
          refine ih s' ?_ (pre ++ [c]) hc
          simp only [List.length_cons] at hs
          omega

theorem contains_kept_replaceAll (key repl τ : Str) (hbk : bracketedB key = true)
    (hbτ : bracketedB τ = true) (hne : key ≠ τ) (t : Str)
    (hc : containsSubBy charEqCS τ t = true) :
    containsSubBy charEqCS τ (replaceAllBy charEqCS key repl t) = true := by
  have hkne : key ≠ [] := bk_ne_nil key hbk
  have h1 : replaceAllBy charEqCS key repl t = replaceGo charEqCS key repl [] 0 t := by
    simp [replaceAllBy, hkne]
  rw [h1]
  exact contains_kept_go key repl τ hbk hbτ hne t.length t (Nat.le_refl _) [] hc

theorem unmask_fold_keeps_token (τ : Str) (hbτ : bracketedB τ = true) :
    ∀ (L : Mappings) (t : Str),
      (∀ e ∈ L, bracketedB e.1 = true ∧ e.1 ≠ τ) →
      containsSubBy charEqCS τ t = true →
      containsSubBy charEqCS τ
        (L.foldl (fun acc e => replaceAllBy charEqCS e.1 e.2 acc) t) = true := by
  intro L
  induction L with
  | nil => intro t _ hc; exact hc
  | cons e L2 ihl =>
    intro t hall hc
    simp only [List.foldl_cons]
    apply ihl _ (fun e2 he2 => hall e2 (List.mem_cons_of_mem _ he2))
    obtain ⟨hbe, hneτ⟩ := hall e (List.mem_cons_self e L2)
    exact contains_kept_replaceAll e.1 e.2 τ hbe hbτ hneτ t hc

/-! ### State-threading lemmas (frame property of the Mapping Table) -/

theorem foldl_state2 {α β γ : Type} (g : α → γ → β → α) (m : γ) :
    ∀ (L : List β) (a : α),
      L.foldl (fun p x => (g p.1 p.2 x, p.2)) (a, m)
        = (L.foldl (fun a x => g a m x) a, m) := by
  intro L
  induction L with
  | nil => intro a; rfl
  | cons x L2 ih =>
    intro a
    simp only [List.foldl_cons]
    exact ih _

theorem foldl_append_filter {α : Type} (pred : α → Bool) :
    ∀ (L : List α) (acc : List α),
      L.foldl (fun l x => if pred x then l ++ [x] else l) acc = acc ++ L.filter pred := by
  intro L
  induction L with
  | nil => intro acc; simp
  | cons x L2 ih =>
    intro acc
    by_cases h : pred x = true
    · simp only [List.foldl_cons, if_pos h, ih, List.filter_cons, h, if_pos trivial]
      simp
    · have h' : pred x = false := by
        cases hh : pred x with
        | true => exact absurd hh h
        | false => rfl
      simp [List.foldl_cons, h', ih, List.filter_cons]

/-! ### Shape preservation of the structured walker -/

theorem attach_map_fn {α β : Type} (l : List α) (f : α → β) :
    l.attach.map (fun x => f x.1) = l.map f := List.attach_map_val l f

theorem jshape_maskPIIInObject (m : Mappings) :
    (v : JsonValue) → jshape (maskPIIInObject v m) = jshape v
  | .str s => by simp only [maskPIIInObject, jshape]
  | .num n => by simp only [maskPIIInObject, jshape]
  | .bool b => by simp only [maskPIIInObject, jshape]
  | .null => by simp only [maskPIIInObject, jshape]
  | .arr items => by
    simp only [maskPIIInObject, jshape]
    rw [attach_map_fn items (fun x => maskPIIInObject x m)]
    rw [attach_map_fn items jshape]
    rw [attach_map_fn (items.map (fun x => maskPIIInObject x m)) jshape]
    rw [List.map_map]
    exact congrArg JShape.arr
      (List.map_congr_left (fun x hx => jshape_maskPIIInObject m x))
  | .obj fields => by
    simp only [maskPIIInObject, jshape]
    rw [attach_map_fn fields (fun e => (e.1, maskPIIInObject e.2 m))]
    rw [attach_map_fn fields (fun e => (e.1, jshape e.2))]
    rw [attach_map_fn (fields.map (fun e => (e.1, maskPIIInObject e.2 m)))
      (fun e => (e.1, jshape e.2))]
    rw [List.map_map]
    refine congrArg JShape.obj (List.map_congr_left ?_)
    intro e he
    show (e.1, jshape (maskPIIInObject e.2 m)) = (e.1, jshape e.2)
    rw [jshape_maskPIIInObject m e.2]
termination_by v => sizeOf v
decreasing_by
  · have h := List.sizeOf_lt_of_mem hx
    simp only [JsonValue.arr.sizeOf_spec]
    omega
  · have h := List.sizeOf_lt_of_mem he
    obtain ⟨a, b⟩ := e
    simp only [Prod.mk.sizeOf_spec] at h
    simp only [JsonValue.obj.sizeOf_spec]
    omega

/-! ### Small helpers for the Mapping Builder analysis -/

theorem ne_of_len_lt {a b : Str} (h : a.length < b.length) : a ≠ b := by
  intro hh
  subst hh
  omega

theorem ne_of_len_lt' {a b : Str} (h : a.length < b.length) : b ≠ a := by
  intro hh
  subst hh
  omega

theorem firstToken_length_lt (n : Str) (h : firstToken n ≠ n) :
    (firstToken n).length < n.length := by
  induction n with
  | nil => exact absurd rfl h
  | cons c rest ih =>
    cases hc : (c != ' ') with
    | true =>
      have hstep : firstToken (c :: rest) = c :: firstToken rest := by
        simp [firstToken, List.takeWhile, hc]
      rw [hstep] at h ⊢
      have h2 : firstToken rest ≠ rest := fun hh => h (by rw [hh])
      have h3 := ih h2
      simp only [List.length_cons]
      omega
    | false =>
      have hstep : firstToken (c :: rest) = [] := by
        simp [firstToken, List.takeWhile, hc]
      rw [hstep]
      simp

theorem lookup_hit (k v : Str) (m : Mappings) : lookupM (upsert k v m) k = some v := by
  rw [lookupM_upsert, if_pos rfl]

theorem lookup_skip (k v : Str) (m : Mappings) (k2 : Str) (h : k2 ≠ k) :
    lookupM (upsert k v m) k2 = lookupM m k2 := by
  rw [lookupM_upsert, if_neg h]

/-! ### Claim theorems -/

/-- C1, counterexample: the claim quantifies over *every* subject record with
full name "John Smith".  For the record whose date-of-birth field is the
(unparseable) string "said", the word "said" of the text is also masked, so
the masked text contains the date-of-birth placeholder and not only the two
name placeholders. -/
theorem c1_counterexample :
    maskPII "John Smith said John is happy".toList
        (createPIIMappings dateEnvNone
          (StudentInfo.mk "John Smith".toList "said".toList [] [] [] [] [] []))
      = "[STUDENT_NAME] [DATE_OF_BIRTH] [STUDENT_FIRST] is happy".toList
    ∧ containsSubBy charEqCS phDob
        (maskPII "John Smith said John is happy".toList
          (createPIIMappings dateEnvNone
            (StudentInfo.mk "John Smith".toList "said".toList [] [] [] [] [] [])))
        = true := by
  exact ⟨rfl, rfl⟩

set_option maxHeartbeats 4000000 in
/-- C1 (amended): for every subject record whose full name is "John Smith"
and whose other identifying fields are empty (the guardian e-mail field is
never mapped and stays arbitrary, as does the date environment), masking
"John Smith said John is happy" yields exactly
"[STUDENT_NAME] said [STUDENT_FIRST] is happy" — only the full-name and
first-name placeholders, no case-insensitive occurrence of "John Smith" or
"John" — and unmasking that result restores "John Smith" for the full-name
token and "John" for the first-name token, i.e. the original text, with
full-form precedence and never a mismatched pair. -/
theorem c1_roundtrip_amended (env : DateEnv) (si : StudentInfo)
    (hn : si.name = "John Smith".toList) (hd : si.dateOfBirth = [])
    (hi : si.studentId = []) (hs : si.school = []) (hg : si.grade = [])
    (hp : si.parentName = []) (ha : si.address = []) :
    maskPII "John Smith said John is happy".toList (createPIIMappings env si)
      = "[STUDENT_NAME] said [STUDENT_FIRST] is happy".toList
    ∧ containsSubBy charEqCI "John Smith".toList
        (maskPII "John Smith said John is happy".toList (createPIIMappings env si))
        = false
    ∧ containsSubBy charEqCI "John".toList
        (maskPII "John Smith said John is happy".toList (createPIIMappings env si))
        = false
    ∧ unmaskPII
        (maskPII "John Smith said John is happy".toList (createPIIMappings env si))
        (createPIIMappings env si)
      = "John Smith said John is happy".toList := by
  obtain ⟨n, d, i, s, g, p, pe, a⟩ := si
  dsimp only at hn hd hi hs hg hp ha
  subst hn hd hi hs hg hp ha
  exact ⟨rfl, rfl, rfl, rfl⟩

/-- C1, witness: the amended theorem applied to the concrete record with only
the name set, under the trivial date environment. -/
theorem c1_witness :
    maskPII "John Smith said John is happy".toList
        (createPIIMappings dateEnvNone
          (StudentInfo.mk "John Smith".toList [] [] [] [] [] [] []))
      = "[STUDENT_NAME] said [STUDENT_FIRST] is happy".toList
    ∧ containsSubBy charEqCI "John Smith".toList
        (maskPII "John Smith said John is happy".toList
          (createPIIMappings dateEnvNone
            (StudentInfo.mk "John Smith".toList [] [] [] [] [] [] [])))
        = false
    ∧ containsSubBy charEqCI "John".toList
        (maskPII "John Smith said John is happy".toList
          (createPIIMappings dateEnvNone
            (StudentInfo.mk "John Smith".toList [] [] [] [] [] [] [])))
        = false
    ∧ unmaskPII
        (maskPII "John Smith said John is happy".toList
          (createPIIMappings dateEnvNone
            (StudentInfo.mk "John Smith".toList [] [] [] [] [] [] [])))
        (createPIIMappings dateEnvNone
          (StudentInfo.mk "John Smith".toList [] [] [] [] [] [] []))
      = "John Smith said John is happy".toList :=
  c1_roundtrip_amended dateEnvNone
    (StudentInfo.mk "John Smith".toList [] [] [] [] [] [] [])
    rfl rfl rfl rfl rfl rfl rfl

/-- C2, counterexample: three concrete failures of the unrestricted
guarantee, each with keys of length greater than 0 and no occurrence embedded
inside a larger replaced value.  (1) An empty placeholder: masking "aabb"
over the single-key table "ab" → "" leaves the output "ab", an occurrence of
the key (there is no larger mapped value at all).  (2) A placeholder whose
text re-introduces a key: masking "cd" over "ab" → "P", "cd" → "ab" outputs
"ab".  (3) A junction with a non-empty placeholder sharing characters with
the key: masking "abb" over "ab" → "a" outputs "ab".  (4) A placeholder
containing the JS replacement pattern dollar-ampersand re-inserts the
matched key: masking "ab" over "ab" → "X$&Y" outputs "XabY". -/
theorem c2_counterexample :
    (maskPII "aabb".toList [("ab".toList, ([] : Str))] = "ab".toList
      ∧ containsSubBy charEqCI "ab".toList
          (maskPII "aabb".toList [("ab".toList, ([] : Str))]) = true)
    ∧ (maskPII "cd".toList [("ab".toList, "P".toList), ("cd".toList, "ab".toList)]
        = "ab".toList
      ∧ containsSubBy charEqCI "ab".toList
          (maskPII "cd".toList
            [("ab".toList, "P".toList), ("cd".toList, "ab".toList)]) = true)
    ∧ (maskPII "abb".toList [("ab".toList, "a".toList)] = "ab".toList
      ∧ containsSubBy charEqCI "ab".toList
          (maskPII "abb".toList [("ab".toList, "a".toList)]) = true)
    ∧ (maskPII "ab".toList [("ab".toList, "X$&Y".toList)] = "XabY".toList
      ∧ containsSubBy charEqCI "ab".toList
          (maskPII "ab".toList [("ab".toList, "X$&Y".toList)]) = true) := by
  exact ⟨⟨rfl, rfl⟩, ⟨rfl, rfl⟩, ⟨rfl, rfl⟩, ⟨rfl, rfl⟩⟩

/-- C2 (amended): for every mapping table whose keys are non-empty and whose
placeholder values are non-empty, contain no dollar character (so JS
replacement-pattern expansion leaves them literal) and share no character
(case-insensitively) with any key, the output of mask contains no
case-insensitive occurrence of any mapping-table key at all.  (Keys are
processed in stable descending length order, each replaced globally exactly
once, literally, over the accumulating output of prior replacements — this is
`maskPII` itself.) -/
theorem c2_mask_no_key_amended (m : Mappings) (t : Str)
    (Hk : ∀ e ∈ m, e.1 ≠ []) (Hp : ∀ e ∈ m, e.2 ≠ [])
    (Hnd : ∀ e ∈ m, ('$' : Char) ∉ e.2)
    (Hd : ∀ e ∈ m, ∀ e2 ∈ m, ∀ a ∈ e2.1, ∀ b ∈ e.2, charEqCI a b = false) :
    ∀ key ∈ keysM m, containsSubBy charEqCI key (maskPII t m) = false :=
  maskPII_no_occurrence m t Hk Hp Hnd Hd

/-- C2, witness: the amended theorem at the table "abc" → "[X]" and the text
"ABC abc xyz". -/
theorem c2_witness :
    containsSubBy charEqCI "abc".toList
      (maskPII "ABC abc xyz".toList [("abc".toList, "[X]".toList)]) = false :=
  c2_mask_no_key_amended [("abc".toList, "[X]".toList)] "ABC abc xyz".toList
    (by decide) (by decide) (by decide) (by decide) "abc".toList (by decide)

/-- C3, counterexample: the mapped value "abc" (length 3 > 2) with the empty
placeholder; masking the exact-case text "ababcc" leaves "abc" in the output
and `validateNoExposedPII` reports it, returning clean `false` and a
non-empty offending list.  Also, the placeholder "$&!" (JS replacement
pattern) masks "abc" to "abc!", again reported: clean is `false`. -/
theorem c3_counterexample :
    ((validateNoExposedPII
        (maskPII "ababcc".toList [("abc".toList, ([] : Str))])
        [("abc".toList, ([] : Str))]).1 = false
    ∧ (validateNoExposedPII
        (maskPII "ababcc".toList [("abc".toList, ([] : Str))])
        [("abc".toList, ([] : Str))]).2 = ["abc".toList])
    ∧ (maskPII "abc".toList [("abc".toList, "$&!".toList)] = "abc!".toList
      ∧ (validateNoExposedPII
          (maskPII "abc".toList [("abc".toList, "$&!".toList)])
          [("abc".toList, "$&!".toList)]).1 = false) := by
  exact ⟨⟨rfl, rfl⟩, rfl, rfl⟩

/-- C3 (amended): for every mapping table whose keys are non-empty and whose
placeholder values are non-empty, contain no dollar character and share no
character (case-insensitively) with any key, and for every input text (in
particular its exact-case, all-lowercase and all-uppercase renderings of
mapped values), `validateNoExposedPII` applied to the output of `maskPII`
over the same table returns clean `true` with an empty offending-values
list. -/
theorem c3_validate_clean_amended (m : Mappings) (t : Str)
    (Hk : ∀ e ∈ m, e.1 ≠ []) (Hp : ∀ e ∈ m, e.2 ≠ [])
    (Hnd : ∀ e ∈ m, ('$' : Char) ∉ e.2)
    (Hd : ∀ e ∈ m, ∀ e2 ∈ m, ∀ a ∈ e2.1, ∀ b ∈ e.2, charEqCI a b = false) :
    (validateNoExposedPII (maskPII t m) m).1 = true
    ∧ (validateNoExposedPII (maskPII t m) m).2 = [] := by
  have hno := maskPII_no_occurrence m t Hk Hp Hnd Hd
  have hfil : (keysM m).filter
      (fun rv => decide (2 < rv.length) &&
        containsSubBy charEqCS (lowerStr rv) (lowerStr (maskPII t m))) = [] := by
    rw [List.filter_eq_nil_iff]
    intro rv hrv
    have h1 := hno rv hrv
    rw [containsSubBy_lower] at h1
    simp [h1]
  constructor
  · simp only [validateNoExposedPII]
    rw [hfil]
    rfl
  · simp only [validateNoExposedPII]
    rw [hfil]

/-- C4, counterexample: for the single-word name "john" (other fields empty)
the lowercase and uppercase case variants end up mapped to the *first-name*
token — the claim demands that no first-name entries exist and that the
case-variant entries retain the full-name token — because the source writes
the lowercase/uppercase first-name entries unconditionally.  Additionally,
for a record with school "John", the first-token entry of name "John Smith"
is overwritten by the school category, so the claim's universal quantification
over records also fails on key collisions. -/
theorem c4_counterexample :
    (lookupM (createPIIMappings dateEnvNone
        (StudentInfo.mk "john".toList [] [] [] [] [] [] []))
        "john".toList = some phStudentFirst
      ∧ lookupM (createPIIMappings dateEnvNone
          (StudentInfo.mk "john".toList [] [] [] [] [] [] []))
          "JOHN".toList = some phStudentFirst
      ∧ lookupM (createPIIMappings dateEnvNone
          (StudentInfo.mk "john".toList [] [] [] [] [] [] []))
          "john".toList ≠ some phStudentName)
    ∧ lookupM (createPIIMappings dateEnvNone
        (StudentInfo.mk "John Smith".toList [] [] "John".toList [] [] [] []))
        "John".toList = some phSchool := by
  exact ⟨⟨rfl, rfl, by decide⟩, rfl⟩

set_option maxHeartbeats 1000000 in
/-- C4 (amended): for every subject record with a non-empty full name and all
other identifying fields empty, with `f` the substring before the first space:
if `f` differs from the name, the exact, lowercase and uppercase forms of the
name are mapped to the full-name token and `f` with its lowercase and
uppercase forms to the first-name token; but if the name is a single token
(`f` equal to the name), the lowercase and uppercase forms of the name are
nevertheless mapped to the *first-name* token (the unconditional
lowercase/uppercase first-name writes of the source overriding the full-name
association), and the exact name keeps the full-name token only when it
differs from both of its case variants. -/
theorem c4_name_mapping_amended (env : DateEnv) (si : StudentInfo)
    (hn : si.name ≠ [])
    (hd : si.dateOfBirth = []) (hi : si.studentId = []) (hs : si.school = [])
    (hg : si.grade = []) (hp : si.parentName = []) (ha : si.address = []) :
    (firstToken si.name ≠ si.name →
      lookupM (createPIIMappings env si) si.name = some phStudentName
      ∧ lookupM (createPIIMappings env si) (lowerStr si.name) = some phStudentName
      ∧ lookupM (createPIIMappings env si) (upperStr si.name) = some phStudentName
      ∧ lookupM (createPIIMappings env si) (firstToken si.name) = some phStudentFirst
      ∧ lookupM (createPIIMappings env si) (lowerStr (firstToken si.name))
          = some phStudentFirst
      ∧ lookupM (createPIIMappings env si) (upperStr (firstToken si.name))
          = some phStudentFirst)
    ∧ (firstToken si.name = si.name →
      lookupM (createPIIMappings env si) (lowerStr si.name) = some phStudentFirst
      ∧ lookupM (createPIIMappings env si) (upperStr si.name) = some phStudentFirst
      ∧ lookupM (createPIIMappings env si) si.name
          = some (if si.name = lowerStr si.name ∨ si.name = upperStr si.name
                  then phStudentFirst else phStudentName)) := by
  have htable : createPIIMappings env si =
      upsert (upperStr (firstToken si.name)) phStudentFirst
        (upsert (lowerStr (firstToken si.name)) phStudentFirst
          (upsert (upperStr si.name) phStudentName
            (upsert (lowerStr si.name) phStudentName
              (if firstToken si.name ≠ [] ∧ firstToken si.name ≠ si.name then
                upsert (firstToken si.name) phStudentFirst
                  (upsert si.name phStudentName [])
               else upsert si.name phStudentName [])))) := by
    simp [createPIIMappings, hd, hi, hs, hg, hp, ha, hn]
  rw [htable]
  constructor
  · intro hf
    have hlen : (firstToken si.name).length < si.name.length :=
      firstToken_length_lt si.name hf
    have hLn : (lowerStr si.name).length = si.name.length := List.length_map _ _
    have hUn : (upperStr si.name).length = si.name.length := List.length_map _ _
    have hLf : (lowerStr (firstToken si.name)).length
        = (firstToken si.name).length := List.length_map _ _
    have hUf : (upperStr (firstToken si.name)).length
        = (firstToken si.name).length := List.length_map _ _
    have h_n_uf : si.name ≠ upperStr (firstToken si.name) := by
      intro hh; have h0 := congrArg List.length hh; omega
    have h_n_lf : si.name ≠ lowerStr (firstToken si.name) := by
      intro hh; have h0 := congrArg List.length hh; omega
    have h_ln_uf : lowerStr si.name ≠ upperStr (firstToken si.name) := by
      intro hh; have h0 := congrArg List.length hh; omega
    have h_ln_lf : lowerStr si.name ≠ lowerStr (firstToken si.name) := by
      intro hh; have h0 := congrArg List.length hh; omega
    have h_un_uf : upperStr si.name ≠ upperStr (firstToken si.name) := by
      intro hh; have h0 := congrArg List.length hh; omega
    have h_un_lf : upperStr si.name ≠ lowerStr (firstToken si.name) := by
      intro hh; have h0 := congrArg List.length hh; omega
    have h_f_un : firstToken si.name ≠ upperStr si.name := by
      intro hh; have h0 := congrArg List.length hh; omega
    have h_f_ln : firstToken si.name ≠ lowerStr si.name := by
      intro hh; have h0 := congrArg List.length hh; omega
    have h_f_n' : si.name ≠ firstToken si.name := fun hh => hf hh.symm
    by_cases hfe : firstToken si.name = []
    · rw [if_neg (fun hc => hc.1 hfe)]
      refine ⟨?_, ?_, ?_, ?_, ?_, ?_⟩
      · rw [lookup_skip _ _ _ _ h_n_uf, lookup_skip _ _ _ _ h_n_lf]
        by_cases h1 : si.name = upperStr si.name
        · rw [lookupM_upsert, if_pos h1]
        · rw [lookup_skip _ _ _ _ h1]
          by_cases h2 : si.name = lowerStr si.name
          · rw [lookupM_upsert, if_pos h2]
          · rw [lookup_skip _ _ _ _ h2, lookup_hit]
      · rw [lookup_skip _ _ _ _ h_ln_uf, lookup_skip _ _ _ _ h_ln_lf]
        by_cases h1 : lowerStr si.name = upperStr si.name
        · rw [lookupM_upsert, if_pos h1]
        · rw [lookup_skip _ _ _ _ h1, lookup_hit]
      · rw [lookup_skip _ _ _ _ h_un_uf, lookup_skip _ _ _ _ h_un_lf, lookup_hit]
      · have hfu : firstToken si.name = upperStr (firstToken si.name) := by
          rw [hfe]; rfl
        rw [lookupM_upsert, if_pos hfu]
      · have hflu : lowerStr (firstToken si.name) = upperStr (firstToken si.name) := by
          rw [hfe]; rfl
        rw [lookupM_upsert, if_pos hflu]
      · rw [lookup_hit]
    · rw [if_pos ⟨hfe, hf⟩]
      refine ⟨?_, ?_, ?_, ?_, ?_, ?_⟩
      · rw [lookup_skip _ _ _ _ h_n_uf, lookup_skip _ _ _ _ h_n_lf]
        by_cases h1 : si.name = upperStr si.name
        · rw [lookupM_upsert, if_pos h1]
        · rw [lookup_skip _ _ _ _ h1]
          by_cases h2 : si.name = lowerStr si.name
          · rw [lookupM_upsert, if_pos h2]
          · rw [lookup_skip _ _ _ _ h2, lookup_skip _ _ _ _ h_f_n', lookup_hit]
      · rw [lookup_skip _ _ _ _ h_ln_uf, lookup_skip _ _ _ _ h_ln_lf]
        by_cases h1 : lowerStr si.name = upperStr si.name
        · rw [lookupM_upsert, if_pos h1]
        · rw [lookup_skip _ _ _ _ h1, lookup_hit]
      · rw [lookup_skip _ _ _ _ h_un_uf, lookup_skip _ _ _ _ h_un_lf, lookup_hit]
      · by_cases h1 : firstToken si.name = upperStr (firstToken si.name)
        · rw [lookupM_upsert, if_pos h1]
        · rw [lookup_skip _ _ _ _ h1]
          by_cases h2 : firstToken si.name = lowerStr (firstToken si.name)
          · rw [lookupM_upsert, if_pos h2]
          · rw [lookup_skip _ _ _ _ h2, lookup_skip _ _ _ _ h_f_un,
              lookup_skip _ _ _ _ h_f_ln, lookup_hit]
      · by_cases h1 : lowerStr (firstToken si.name) = upperStr (firstToken si.name)
        · rw [lookupM_upsert, if_pos h1]
        · rw [lookup_skip _ _ _ _ h1, lookup_hit]
      · rw [lookup_hit]
  · intro hf
    rw [if_neg (fun hc => hc.2 hf)]
    rw [hf]
    refine ⟨?_, ?_, ?_⟩
    · by_cases h1 : lowerStr si.name = upperStr si.name
      · rw [lookupM_upsert, if_pos h1]
      · rw [lookup_skip _ _ _ _ h1, lookup_hit]
    · rw [lookup_hit]
    · by_cases h1 : si.name = upperStr si.name
      · rw [lookupM_upsert, if_pos h1, if_pos (Or.inr h1)]
      · rw [lookup_skip _ _ _ _ h1]
        by_cases h2 : si.name = lowerStr si.name
        · rw [lookupM_upsert, if_pos h2, if_pos (Or.inl h2)]
        · rw [lookup_skip _ _ _ _ h2, lookup_skip _ _ _ _ h1,
            lookup_skip _ _ _ _ h2, lookup_hit,
            if_neg (fun hor => hor.elim h2 h1)]

/-- C5, counterexample: the claim quantifies over every record with a
non-empty date-of-birth field, but a later field with the identical literal
value overwrites the association: for date of birth "X123" and subject
identifier "X123", the raw stored value ends up on the student-id token, not
the date-of-birth token. -/
theorem c5_counterexample :
    lookupM (createPIIMappings dateEnvNone
        (StudentInfo.mk [] "X123".toList "X123".toList [] [] [] [] []))
      "X123".toList = some phStudentId
    ∧ phStudentId ≠ phDob := by
  exact ⟨rfl, by decide⟩

/-- C5 (amended): for every subject record with a non-empty date-of-birth
field and all other identifying fields empty, and for every behaviour of the
host date facilities: the raw stored value is mapped to the date-of-birth
token; when the value does not parse, the table is exactly the raw-value
entry (graceful degradation, by totality never an error); and when it parses
to `d`, the locale rendering and the ISO rendering are additionally mapped to
the same token, and no key beyond the raw value and the two renderings
exists. -/
theorem c5_dob_mapping_amended (env : DateEnv) (si : StudentInfo)
    (hdob : si.dateOfBirth ≠ [])
    (hname : si.name = []) (hid : si.studentId = []) (hs : si.school = [])
    (hg : si.grade = []) (hp : si.parentName = []) (ha : si.address = []) :
    lookupM (createPIIMappings env si) si.dateOfBirth = some phDob
    ∧ (env.parse si.dateOfBirth = none →
        createPIIMappings env si = [(si.dateOfBirth, phDob)])
    ∧ (∀ d, env.parse si.dateOfBirth = some d →
        lookupM (createPIIMappings env si) (env.fmtLocale d) = some phDob
        ∧ lookupM (createPIIMappings env si) (env.fmtISO d) = some phDob
        ∧ keysM (createPIIMappings env si) ⊆
            [si.dateOfBirth, env.fmtLocale d, env.fmtISO d]) := by
  cases hpar : env.parse si.dateOfBirth with
  | none =>
    have htable : createPIIMappings env si = upsert si.dateOfBirth phDob [] := by
      simp [createPIIMappings, hname, hid, hs, hg, hp, ha, hdob, hpar]
    rw [htable]
    refine ⟨lookup_hit _ _ _, fun _ => rfl, fun d hd => ?_⟩
    exact absurd hd (by simp)
  | some d0 =>
    have htable : createPIIMappings env si =
        upsert (env.fmtISO d0) phDob
          (upsert (env.fmtLocale d0) phDob (upsert si.dateOfBirth phDob [])) := by
      simp [createPIIMappings, hname, hid, hs, hg, hp, ha, hdob, hpar]
    rw [htable]
    refine ⟨?_, ?_, ?_⟩
    · by_cases h1 : si.dateOfBirth = env.fmtISO d0
      · rw [lookupM_upsert, if_pos h1]
      · rw [lookup_skip _ _ _ _ h1]
        by_cases h2 : si.dateOfBirth = env.fmtLocale d0
        · rw [lookupM_upsert, if_pos h2]
        · rw [lookup_skip _ _ _ _ h2, lookup_hit]
    · intro h
      exact absurd h (by simp)
    · intro d hd
      injection hd with hdd
      subst hdd
      refine ⟨?_, ?_, ?_⟩
      · by_cases h1 : env.fmtLocale d0 = env.fmtISO d0
        · rw [lookupM_upsert, if_pos h1]
        · rw [lookup_skip _ _ _ _ h1, lookup_hit]
      · rw [lookup_hit]
      · intro x hx
        rcases List.mem_cons.mp (keysM_upsert_subset _ _ _ hx) with h1 | h1
        · simp [h1]
        · rcases List.mem_cons.mp (keysM_upsert_subset _ _ _ h1) with h2 | h2
          · simp [h2]
          · have hx3 : x = si.dateOfBirth := by
              simpa [upsert, keysM] using h2
            simp [hx3]

/-- C5, witness: the amended theorem at the record whose date of birth is
"2015-04-02" under a date environment that parses it and renders it in US
locale form; the locale rendering is mapped to the date-of-birth token. -/
theorem c5_witness :
    lookupM (createPIIMappings dateEnv0
        (StudentInfo.mk [] "2015-04-02".toList [] [] [] [] [] []))
      "4/2/2015".toList = some phDob :=
  ((c5_dob_mapping_amended dateEnv0
      (StudentInfo.mk [] "2015-04-02".toList [] [] [] [] [] [])
      (by decide) rfl rfl rfl rfl rfl rfl).2.2 1427932800000 (by decide)).1

/-- C6, counterexample: the reverse table is claimed to retain the *first*
real value encountered for a token; but the source's JS falsiness check
(`!reverseMappings[placeholder]`) treats an empty-string value as absent, so
for the table "" → [STUDENT_NAME], "a" → [STUDENT_NAME] the reverse table
retains "a", not the first value "". -/
theorem c6_counterexample :
    buildReverse [(([] : Str), phStudentName), ("a".toList, phStudentName)]
      = [(phStudentName, "a".toList)]
    ∧ ("a".toList : Str) ≠ [] := by
  exact ⟨rfl, by decide⟩

/-- C6 (amended): the reverse table used by `unmaskPII` associates each
placeholder with the first real value encountered in the mapping table's
insertion order, except that an empty-string value only reserves the slot and
is overwritten by the next value for the same token (`specFirstValue` states
exactly this scan); and a placeholder token with no reverse-table entry —
pronoun tokens, absent categories — is left unreplaced, also in texts mixing
resolvable and unresolved tokens: an unresolved bracket-delimited token
distinct from every (bracket-delimited) reverse-table key still occurs in
the output of unmasking whenever it occurred in the input, and a text
containing no reverse-table key at all is returned entirely unchanged —
unmasking never removes or blanks an unresolved token. -/
theorem c6_reverse_first_amended :
    (∀ (m : Mappings) (ph : Str),
      lookupM (buildReverse m) ph = specFirstValue none ph m)
    ∧ (∀ (m : Mappings) (t τ : Str),
        bracketedB τ = true →
        (∀ e ∈ buildReverse m, bracketedB e.1 = true ∧ e.1 ≠ τ) →
        containsSubBy charEqCS τ t = true →
        containsSubBy charEqCS τ (unmaskPII t m) = true)
    ∧ (∀ (m : Mappings) (t : Str),
        (∀ e ∈ buildReverse m, containsSubBy charEqCS e.1 t = false) →
          unmaskPII t m = t) := by
  refine ⟨lookup_buildReverse, ?_, ?_⟩
  · intro m t τ hbτ hall hc
    unfold unmaskPII
    exact unmask_fold_keeps_token τ hbτ (buildReverse m) t hall hc
  · intro m t h
    unfold unmaskPII
    exact unmask_fold_id t (buildReverse m) h

/-- C6, witness: a mixed text containing the resolvable token
"[STUDENT_NAME]" and the pronoun token "[HE/SHE]" (which has no
reverse-table entry): after unmasking — which yields
"John Smith is [HE/SHE]" — the unresolved token still occurs; and a text
with no reverse-table key at all is returned unchanged. -/
theorem c6_witness :
    containsSubBy charEqCS "[HE/SHE]".toList
      (unmaskPII "[STUDENT_NAME] is [HE/SHE]".toList
        [("John Smith".toList, phStudentName)]) = true
    ∧ unmaskPII "[HE/SHE] ran".toList [("John Smith".toList, phStudentName)]
      = "[HE/SHE] ran".toList :=
  ⟨c6_reverse_first_amended.2.1 [("John Smith".toList, phStudentName)]
      "[STUDENT_NAME] is [HE/SHE]".toList "[HE/SHE]".toList
      (by decide) (by decide) (by decide),
    c6_reverse_first_amended.2.2 [("John Smith".toList, phStudentName)]
      "[HE/SHE] ran".toList (by decide)⟩

/-- C4, witness: the amended theorem at the record with name "John Smith";
the first token "John" (and thus its case variants) is mapped to the
first-name token. -/
theorem c4_witness :
    lookupM (createPIIMappings dateEnvNone
        (StudentInfo.mk "John Smith".toList [] [] [] [] [] [] []))
      (firstToken "John Smith".toList) = some phStudentFirst :=
  ((c4_name_mapping_amended dateEnvNone
      (StudentInfo.mk "John Smith".toList [] [] [] [] [] [] [])
      (by decide) rfl rfl rfl rfl rfl rfl).1 (by decide)).2.2.2.1

/-- C3, witness: the amended theorem at the table "abc" → "[X]" and a text
containing the uppercase and exact renderings of the mapped value. -/
theorem c3_witness :
    (validateNoExposedPII
        (maskPII "ABC abc".toList [("abc".toList, "[X]".toList)])
        [("abc".toList, "[X]".toList)]).1 = true
    ∧ (validateNoExposedPII
        (maskPII "ABC abc".toList [("abc".toList, "[X]".toList)])
        [("abc".toList, "[X]".toList)]).2 = [] :=
  c3_validate_clean_amended [("abc".toList, "[X]".toList)] "ABC abc".toList
    (by decide) (by decide) (by decide) (by decide)

/-- C7: the structured walker is shape-faithful: for every value —
text string, array, keyed object, number, boolean or null — masking preserves
the shape (including the ordering of array elements and the full ordered key
list of objects, keys never rewritten), every text leaf is replaced by
`maskPII` of that leaf, every non-text leaf is returned unchanged, arrays are
mapped element-wise and objects value-wise. -/
theorem c7_maskStructured_shape (m : Mappings) :
    (∀ v : JsonValue, jshape (maskPIIInObject v m) = jshape v)
    ∧ (∀ s, maskPIIInObject (.str s) m = .str (maskPII s m))
    ∧ (∀ n, maskPIIInObject (.num n) m = .num n)
    ∧ (∀ b, maskPIIInObject (.bool b) m = .bool b)
    ∧ maskPIIInObject .null m = .null
    ∧ (∀ items, maskPIIInObject (.arr items) m
        = .arr (items.map (fun x => maskPIIInObject x m)))
    ∧ (∀ fields, maskPIIInObject (.obj fields) m
        = .obj (fields.map (fun e => (e.1, maskPIIInObject e.2 m)))) := by
  refine ⟨jshape_maskPIIInObject m, ?_, ?_, ?_, ?_, ?_, ?_⟩
  · intro s
    simp only [maskPIIInObject]
  · intro n
    simp only [maskPIIInObject]
  · intro b
    simp only [maskPIIInObject]
  · simp only [maskPIIInObject]
  · intro items
    simp only [maskPIIInObject]
    rw [attach_map_fn items (fun x => maskPIIInObject x m)]
  · intro fields
    simp only [maskPIIInObject]
    rw [attach_map_fn fields (fun e => (e.1, maskPIIInObject e.2 m))]

/-- C8: the leak validator reports a mapped real value (a mapping-table key)
as offending exactly when its length exceeds 2 and it occurs
case-insensitively in the text; values of length at most 2 are never
reported; and clean is `true` exactly when the offending list is empty. -/
theorem c8_validate_characterisation (m : Mappings) (t : Str) (v : Str) :
    (v ∈ (validateNoExposedPII t m).2 ↔
      v ∈ keysM m ∧ 2 < v.length ∧ containsSubBy charEqCI v t = true)
    ∧ ((validateNoExposedPII t m).1 = true ↔ (validateNoExposedPII t m).2 = []) := by
  constructor
  · simp only [validateNoExposedPII]
    rw [List.mem_filter]
    constructor
    · rintro ⟨h1, h2⟩
      simp only [Bool.and_eq_true, decide_eq_true_eq] at h2
      exact ⟨h1, h2.1, by rw [containsSubBy_lower]; exact h2.2⟩
    · rintro ⟨h1, h2, h3⟩
      refine ⟨h1, ?_⟩
      simp only [Bool.and_eq_true, decide_eq_true_eq]
      exact ⟨h2, by rw [← containsSubBy_lower]; exact h3⟩
  · simp only [validateNoExposedPII]
    exact List.isEmpty_iff

/-- C9: the mapping table is never mutated: rendering the source loops with
the table threaded as explicit JS state, masking, unmasking and validating
return the table unchanged and their text results agree with the pure
functions of the (text, table) pair. -/
theorem c9_frame_purity (t : Str) (m : Mappings) :
    maskPIIS t m = (maskPII t m, m)
    ∧ unmaskPIIS t m = (unmaskPII t m, m)
    ∧ validateNoExposedPIIS t m = (validateNoExposedPII t m, m) := by
  refine ⟨?_, ?_, ?_⟩
  · unfold maskPIIS maskPII
    exact foldl_state2
      (fun acc mm k => replaceAllBy charEqCI k ((lookupM mm k).getD []) acc) m _ t
  · have h1 := foldl_state2
      (fun acc (_ : Mappings) (e : Str × Str) =>
        if (lookupM acc e.2).getD [] = [] then upsert e.2 e.1 acc else acc)
      m m ([] : Mappings)
    have h2 : (buildReverse m).foldl
        (fun p e => (replaceAllBy charEqCS e.1 e.2 p.1, p.2)) (t, m)
        = (unmaskPII t m, m) := foldl_state2
      (fun acc (_ : Mappings) (e : Str × Str) => replaceAllBy charEqCS e.1 e.2 acc)
      m (buildReverse m) t
    calc unmaskPIIS t m
        = (buildReverse m).foldl
            (fun p e => (replaceAllBy charEqCS e.1 e.2 p.1, p.2)) (t, m) := by
          unfold unmaskPIIS
          rw [h1]
          rfl
      _ = (unmaskPII t m, m) := h2
  · have h1 := foldl_state2
      (fun acc (_ : Mappings) (rv : Str) =>
        if decide (2 < rv.length) && containsSubBy charEqCS (lowerStr rv) (lowerStr t)
        then acc ++ [rv] else acc)
      m (keysM m) ([] : List Str)
    have h2 := foldl_append_filter
      (fun rv => decide (2 < rv.length) && containsSubBy charEqCS (lowerStr rv) (lowerStr t))
      (keysM m) ([] : List Str)
    simp only [validateNoExposedPIIS, validateNoExposedPII]
    rw [h1, h2, List.nil_append]

/-- C10 (implicit): the offending-values list of the leak validator contains
mapping-table *keys*, not textual occurrences — whenever one real value
occurs case-insensitively in the text (in any casing), every case-variant key
of that value of length greater than 2 is reported, including keys whose
casing never appears in the text. -/
theorem c10_exposed_lists_case_variants (m : Mappings) (t : Str) (k k2 : Str)
    (hk : k ∈ keysM m) (hk2 : k2 ∈ keysM m)
    (hvar : lowerStr k = lowerStr k2) (hlen : 2 < k2.length)
    (hocc : containsSubBy charEqCI k t = true) :
    k2 ∈ (validateNoExposedPII t m).2 := by
  simp only [validateNoExposedPII]
  rw [List.mem_filter]
  refine ⟨hk2, ?_⟩
  simp only [Bool.and_eq_true, decide_eq_true_eq]
  refine ⟨hlen, ?_⟩
  rw [containsSubBy_lower] at hocc
  rw [← hvar]
  exact hocc

/-- C10, witness: the table maps "John", "john" and "JOHN" (all to the
first-name token); the text contains only the lowercase rendering, yet the
key "JOHN" — whose casing never appears — is reported. -/
theorem c10_witness :
    "JOHN".toList ∈ (validateNoExposedPII "he saw john today".toList
      [("John".toList, phStudentFirst), ("john".toList, phStudentFirst),
        ("JOHN".toList, phStudentFirst)]).2 :=
  c10_exposed_lists_case_variants
    [("John".toList, phStudentFirst), ("john".toList, phStudentFirst),
      ("JOHN".toList, phStudentFirst)]
    "he saw john today".toList "John".toList "JOHN".toList
    (by decide) (by decide) (by decide) (by decide) (by decide)

end PII
